import Mathlib

/-!
# Notas: registry, graph scheduler and event bus of `main.cpp`

A shallow embedding of `src/main.cpp`:

* `UMap` stands for `std::unordered_map<std::string, V>`: an association list
  with pairwise distinct keys.  The iteration order of an unordered map is
  unspecified; the list order used here is one admissible order and no result
  below depends on it.
* `Handle` stands for `std::shared_ptr<ISystem>`: either null or the address
  of an object together with the object's dynamic class.
* `CoreSystem`, `EventSystem` carry the data members of the two classes and
  every member function is a function on these records.
* `Callback` stands for `std::function<void(std::string &)>`: it receives the
  payload and either returns, leaving a (possibly changed) payload, or does
  not return because it ends the process (`exit(0)` in `WindowSystem::quit`).
* `Taskflow`, `Task` and the executor belong to the Taskflow library, which is
  not part of `main.cpp`. The graph is the list of nodes and constraints that
  the two loops of `CoreSystem::run` create; the executor is a step relation
  on traces of start and completion events, written from the specification
  of the scheduler (a node is released once all its predecessors are done).
  `CoreSystem.run` is the scheduling alone; `CoreSystem.runWith` adds the
  lambdas of the tasks: a task completes only when its lambda returns.
-/

namespace Notas

/-! ## Objects and handles -/

/-- The classes declared in `main.cpp`. -/
inductive Kind where
  | ISystem
  | EventSystem
  | RenderSystem
  | WindowSystem
  | InputSystem
  deriving DecidableEq, Repr

/-- Class `k` is class `T` or derives from it (every class of the file derives
from `ISystem` and from nothing else). -/
def Kind.isA (k T : Kind) : Bool :=
  decide (T = Kind.ISystem) || decide (k = T)

/-- A non-null pointer: the address of the object and its dynamic class. -/
structure Ptr where
  addr : Nat
  kind : Kind
  deriving DecidableEq, Repr

/-- A `std::shared_ptr<...>`: `none` is the null pointer. -/
abbrev Handle := Option Ptr

/-- The data members of `ISystem`. -/
structure Fields where
  eventSystem : Handle
  name : String
  deriving DecidableEq, Repr

/-- The store: the `ISystem` members of the object at each address. -/
abbrev Heap := Nat → Fields

/-- Overwrite the members of the object at `addr`. -/
def Heap.set (heap : Heap) (addr : Nat) (f : Fields) : Heap :=
  fun a => if a = addr then f else heap a

/-- `std::dynamic_pointer_cast<T>`: null for a null argument and for an object
whose dynamic class is not `T` or derived from it, the same pointer otherwise. -/
def dynamicPointerCast (T : Kind) : Handle → Handle
  | none => none
  | some p => if p.kind.isA T then some p else none

/-- The handle points to an object of capability type `T`. -/
def Handle.hasType (h : Handle) (T : Kind) : Prop :=
  ∃ p, h = some p ∧ p.kind.isA T = true

/-! ## `std::unordered_map<std::string, V>` -/

/-- `m[k] = v` on the entry list: overwrite the entry of `k` in place when there
is one, add a new entry otherwise. -/
def assignList {V : Type} : List (String × V) → String → V → List (String × V)
  | [], k, v => [(k, v)]
  | (k', v') :: rest, k, v =>
    if k' = k then (k', v) :: rest else (k', v') :: assignList rest k v

/-- An unordered map with string keys: its entries, with distinct keys. -/
structure UMap (V : Type) where
  entries : List (String × V)
  nodup : (entries.map Prod.fst).Nodup

namespace UMap

variable {V : Type}

/-- The empty map. -/
def empty : UMap V := ⟨[], List.nodup_nil⟩

/-- `m.size()`. -/
def size (m : UMap V) : Nat := m.entries.length

/-- The value stored under `k`, if any. -/
def find? (m : UMap V) (k : String) : Option V :=
  (m.entries.find? (fun e => decide (e.1 = k))).map Prod.snd

/-- `m.count(k)`: 1 when `k` is a key, 0 otherwise. -/
def count (m : UMap V) (k : String) : Nat :=
  if (m.find? k).isSome then 1 else 0

/-- `m[k] = v`. -/
def assign (m : UMap V) (k : String) (v : V) : UMap V :=
  ⟨assignList m.entries k v, by
    have keys : ∀ l : List (String × V), (assignList l k v).map Prod.fst =
        if k ∈ l.map Prod.fst then l.map Prod.fst else l.map Prod.fst ++ [k] := by
      intro l
      induction l with
      | nil => simp [assignList]
      | cons e rest ih =>
        obtain ⟨k', v'⟩ := e
        by_cases h : k' = k
        · simp [assignList, h]
        · have h' : ¬ k = k' := fun e => h e.symm
          simp only [assignList, h, if_false, List.map_cons, ih, List.mem_cons, h', false_or]
          split <;> simp
    rw [keys]
    split
    · exact m.nodup
    · rename_i hk
      rw [List.nodup_append]
      refine ⟨m.nodup, List.nodup_singleton k, ?_⟩
      intro a ha hb
      simp only [List.mem_singleton] at hb
      exact hk (hb ▸ ha)⟩

/-- `m[k]` used as a value: the stored value when `k` is a key; otherwise a
value-initialised entry is inserted first and that value is returned. The
second component is the map afterwards. -/
def index (m : UMap V) (k : String) (dflt : V) : V × UMap V :=
  match m.find? k with
  | some v => (v, m)
  | none => (dflt, m.assign k dflt)

end UMap

/-! ## `CoreSystem` -/

/-- The data members of `CoreSystem`. -/
structure CoreSystem where
  systems : UMap Handle
  dependencies : List (String × String)

namespace CoreSystem

/-- `CoreSystem::CoreSystem()`. -/
def new : CoreSystem := ⟨UMap.empty, []⟩

/-- `CoreSystem::addSystem`. -/
def addSystem (cs : CoreSystem) (name : String) (system : Handle) : CoreSystem :=
  { cs with systems := cs.systems.assign name system }

/-- `CoreSystem::setDependencies`. -/
def setDependencies (cs : CoreSystem) (before after : String) : CoreSystem :=
  { cs with dependencies := cs.dependencies ++ [(before, after)] }

/-- `CoreSystem::getSystem<TSystem>`: the returned pointer and the `CoreSystem`
afterwards (`systems[name]` is the inserting subscript of the map). -/
def getSystem (T : Kind) (cs : CoreSystem) (name : String) : Handle × CoreSystem :=
  if cs.systems.count name ≠ 0 then
    let r := cs.systems.index name none
    (dynamicPointerCast T r.1, { cs with systems := r.2 })
  else
    (none, cs)

end CoreSystem

/-- The `CoreSystem` that `main` has built when it calls `core.run()`; the
objects made by `std::make_shared` are given the addresses 0 to 3. -/
def mainCore : CoreSystem :=
  ((((((CoreSystem.new.addSystem "EventSystem" (some ⟨0, Kind.EventSystem⟩)).addSystem
    "RenderSystem" (some ⟨1, Kind.RenderSystem⟩)).addSystem
    "InputSystem" (some ⟨2, Kind.InputSystem⟩)).addSystem
    "WindowSystem" (some ⟨3, Kind.WindowSystem⟩)).setDependencies
    "EventSystem" "RenderSystem").setDependencies
    "EventSystem" "InputSystem").setDependencies
    "EventSystem" "WindowSystem"

/-! ## `EventSystem` -/

/-- A `std::function<void(std::string &)>`: called on the payload, it returns
`some` of the payload as it leaves it, or `none` when it does not return
because it ends the process. -/
abbrev Callback := String → Option String

/-- `RenderSystem::listenerRender`: prints the payload and returns. -/
def listenerRender : Callback := fun msg => some msg

/-- `WindowSystem::quit`: prints the payload and calls `exit(0)`. -/
def quit : Callback := fun _ => none

/-- The data member `events` of `EventSystem`, in registration order. -/
structure EventSystem where
  events : List (String × Callback)

/-- One call made by `dispatch`: the position in `events` of the listener that
is called, and the payload handed to its callback. -/
structure Invocation where
  listener : Nat
  arg : String
  deriving DecidableEq, Repr

/-- What one `dispatch` does: the `EventSystem` afterwards, the calls it made in
the order it made them, and the local `msg` when the loop is left (`none` when
a callback ended the process inside the loop). -/
structure DispatchResult where
  self : EventSystem
  invoked : List Invocation
  msg : Option String

namespace EventSystem

/-- `EventSystem::listener`. -/
def listener (es : EventSystem) (name : String) (func : Callback) : EventSystem :=
  { events := es.events ++ [(name, func)] }

/-- The `for` loop of `EventSystem::dispatch` over the listeners that remain,
`i` being the position of the first of them and `msg` the local string. -/
def dispatchLoop (nameEvent : String) :
    List (String × Callback) → Nat → String → List Invocation × Option String
  | [], _, msg => ([], some msg)
  | (name, func) :: rest, i, msg =>
    if nameEvent = name then
      match func msg with
      | some msg' =>
        let r := dispatchLoop nameEvent rest (i + 1) msg'
        (⟨i, msg⟩ :: r.1, r.2)
      | none => ([⟨i, msg⟩], none)
    else
      dispatchLoop nameEvent rest (i + 1) msg

/-- `EventSystem::dispatch`. -/
def dispatch (es : EventSystem) (nameEvent : String) (msg : String) : DispatchResult :=
  let r := dispatchLoop nameEvent es.events 0 msg
  { self := es, invoked := r.1, msg := r.2 }

/-- Listener number `i` is registered under the name `nameEvent`. -/
def registeredUnder (es : EventSystem) (nameEvent : String) (i : Nat) : Prop :=
  (es.events[i]?).map Prod.fst = some nameEvent

instance (es : EventSystem) (nameEvent : String) (i : Nat) :
    Decidable (es.registeredUnder nameEvent i) := by
  unfold registeredUnder
  exact inferInstance

/-- The positions of the listeners that a `dispatch` called, in call order. -/
def called (es : EventSystem) (nameEvent : String) (msg : String) : List Nat :=
  (es.dispatch nameEvent msg).invoked.map Invocation.listener

/-- The statement of C1 at one input: the listeners called are exactly those
registered under `nameEvent`, each once, in registration order. -/
def InvokesExactlyMatching (es : EventSystem) (nameEvent : String) (msg : String) : Prop :=
  (es.called nameEvent msg).Sorted (· < ·) ∧
  ∀ i, i ∈ es.called nameEvent msg ↔ es.registeredUnder nameEvent i

end EventSystem

/-- An `EventSystem` whose only listener is registered under `"quit"`. -/
def quitOnly : EventSystem := EventSystem.listener ⟨[]⟩ "quit" quit

/-- Two listeners under `"Renderizar"`: the first appends a mark to the
payload, the second is `RenderSystem::listenerRender`. -/
def markThenRender : EventSystem :=
  (EventSystem.listener ⟨[]⟩ "Renderizar" (fun msg => some (msg ++ "!"))).listener
    "Renderizar" listenerRender

/-- Two listeners under `"quit"`: `WindowSystem::quit`, then a listener that
returns. -/
def quitThenRender : EventSystem :=
  (EventSystem.listener ⟨[]⟩ "quit" quit).listener "quit" listenerRender

/-! ## The task graph built by `CoreSystem::run` -/

/-- The lambda that `CoreSystem::run` hands to `taskflow.emplace`: it captures
the entry `name`, `system` of `systems` (and `this`). -/
structure TaskWork where
  name : String
  system : Handle
  deriving DecidableEq, Repr

/-- Modelled from the spec: `tf::Task` of the Taskflow library, a handle to a
node of the graph; here the position of the node in `Taskflow.nodes`. -/
abbrev Task := Nat

/-- Modelled from the spec: `tf::Taskflow` of the Taskflow library ("one node per
registered unit, edges translated into precedence constraints"): the nodes in
creation order and the precedence constraints `(before, after)`. -/
structure Taskflow where
  nodes : List TaskWork
  edges : List (Task × Task)
  deriving DecidableEq, Repr

namespace Taskflow

/-- Modelled from the spec: `tf::Taskflow::emplace`, which adds a node for the
given work and returns its handle. -/
def emplace (tf : Taskflow) (w : TaskWork) : Taskflow × Task :=
  ({ tf with nodes := tf.nodes ++ [w] }, tf.nodes.length)

/-- Modelled from the spec: `tf::Task::precede`, which adds the constraint that
`before` completes prior to `after` starting. -/
def precede (tf : Taskflow) (before after : Task) : Taskflow :=
  { tf with edges := tf.edges ++ [(before, after)] }

end Taskflow

namespace CoreSystem

/-- The first loop of `CoreSystem::run`: one `emplace` per entry of `systems`,
the handle stored in `tasks[name]`. -/
def buildTasks (cs : CoreSystem) : Taskflow × UMap Task :=
  cs.systems.entries.foldl
    (fun acc e =>
      let r := acc.1.emplace ⟨e.1, e.2⟩
      (r.1, acc.2.assign e.1 r.2))
    (⟨[], []⟩, UMap.empty)

/-- The second loop of `CoreSystem::run`: one `precede` per dependency whose
two names are keys of `tasks`. -/
def addPrecedences (tasks : UMap Task) (dependencies : List (String × String))
    (tf : Taskflow) : Taskflow :=
  dependencies.foldl
    (fun tf d =>
      if tasks.count d.1 ≠ 0 ∧ tasks.count d.2 ≠ 0 then
        match tasks.find? d.1, tasks.find? d.2 with
        | some before, some after => tf.precede before after
        | _, _ => tf
      else tf)
    tf

/-- The constraint that the second loop of `run` adds for the dependency `d`,
if it adds one. -/
def edgeOf (tasks : UMap Task) (d : String × String) : Option (Task × Task) :=
  match tasks.find? d.1, tasks.find? d.2 with
  | some before, some after => some (before, after)
  | _, _ => none

/-- The local map `tasks` of `CoreSystem::run` after the first loop. -/
def tasks (cs : CoreSystem) : UMap Task := cs.buildTasks.2

/-- The `taskflow` that `CoreSystem::run` hands to the executor. -/
def graph (cs : CoreSystem) : Taskflow :=
  addPrecedences cs.buildTasks.2 cs.dependencies cs.buildTasks.1

/-- The body of the task lambda up to the call `system->run()`: the object
whose `run` is called and the store at that moment; `none` when `system` is
null (the lambda then dereferences a null pointer). -/
def stateAtRun (cs : CoreSystem) (w : TaskWork) (heap : Heap) : Option (Ptr × Heap) :=
  match w.system with
  | none => none
  | some p =>
    let heap1 := heap.set p.addr { heap p.addr with name := w.name }
    let bus := (cs.getSystem Kind.EventSystem "EventSystem").1
    let heap2 := heap1.set p.addr { heap1 p.addr with eventSystem := bus }
    some (p, heap2)

/-- The task lambda: the members are set, then `system->run()` is called;
`runOf` is the virtual `run` of the objects. -/
def taskBody (runOf : Ptr → Heap → Option Heap) (cs : CoreSystem) (w : TaskWork)
    (heap : Heap) : Option Heap :=
  match cs.stateAtRun w heap with
  | none => none
  | some (p, heap') => runOf p heap'

/-- The dependency `(before, after)` is in the list and both names are
registered. -/
def RegisteredEdge (cs : CoreSystem) (before after : String) : Prop :=
  (before, after) ∈ cs.dependencies ∧
    cs.systems.count before ≠ 0 ∧ cs.systems.count after ≠ 0

end CoreSystem

/-! ## Execution of a task graph -/

/-- Modelled from the spec: what can be observed of an execution by the
executor of the Taskflow library: a task starts, a task completes. -/
inductive Ev where
  | start (t : Task)
  | finish (t : Task)
  deriving DecidableEq, Repr

/-- Modelled from the spec: the states of a node of the executor ("Pending →
Ready → Running → Done"; `Ready` is `pending` with every predecessor `done`). -/
inductive Status where
  | pending
  | running
  | done
  deriving DecidableEq, Repr

/-- Modelled from the spec: task `t` has started in the events `past`. -/
def started (past : List Ev) (t : Task) : Bool := decide (Ev.start t ∈ past)

/-- Modelled from the spec: task `t` has completed in the events `past`. -/
def done (past : List Ev) (t : Task) : Bool := decide (Ev.finish t ∈ past)

/-- Modelled from the spec: the state of node `t` after the events `past`. -/
def status (past : List Ev) (t : Task) : Status :=
  if done past t then Status.done
  else if started past t then Status.running
  else Status.pending

/-- Modelled from the spec: the tasks of `tf` that are running after the events
`past`, each on a worker of the executor. -/
def runningTasks (tf : Taskflow) (past : List Ev) : List Task :=
  (List.range tf.nodes.length).filter (fun t => started past t && !done past t)

/-- Modelled from the spec: every predecessor of `t` in `tf` has completed
("all its predecessor nodes report completion"). -/
def ready (tf : Taskflow) (past : List Ev) (t : Task) : Bool :=
  tf.edges.all (fun e => decide (e.2 ≠ t) || done past e.1)

/-- Modelled from the spec: one step of `tf::Executor` (Taskflow library) on the
graph `tf` with `workers` worker threads, after the events `past`. "A node is
released for execution only once all its predecessor nodes report completion":
a task may start when it is a pending node, all its predecessors are done and
a worker is free; a task may complete when it is running. -/
def enabled (tf : Taskflow) (workers : Nat) (past : List Ev) : Ev → Bool
  | Ev.start t =>
    decide (t < tf.nodes.length) && !started past t && ready tf past t &&
      decide ((runningTasks tf past).length < workers)
  | Ev.finish t => started past t && !done past t

/-- Modelled from the spec: `past`, latest event first, is a sequence of steps
of the executor from the state in which every node is pending. -/
def isExecution (tf : Taskflow) (workers : Nat) : List Ev → Bool
  | [] => true
  | e :: past => isExecution tf workers past && enabled tf workers past e

/-- Modelled from the spec: every node of `tf` is done ("the call returns only
after every node ... completes"). -/
def allDone (tf : Taskflow) (past : List Ev) : Bool :=
  (List.range tf.nodes.length).all (fun t => done past t)

namespace CoreSystem

/-- The scheduling of `CoreSystem::run` up to some moment: `trace`, in time
order, is a sequence of starts and completions that the executor
`tf::Executor executor{systems.size()}` (modelled by `isExecution`) admits in
`executor.run(taskflow).wait()` for the graph built by the two loops. It says
when a task may start; whether a started task does complete depends on what
its lambda does, which `runWith` adds. Every execution of `runWith` is one of
these traces, and every prefix of a trace is a trace: the process may be ended
at any moment (`exit(0)` in a callback). -/
def run (cs : CoreSystem) (trace : List Ev) : Bool :=
  isExecution cs.graph cs.systems.size trace.reverse

/-- Modelled from the spec: every unit is done, the state in which
`executor.run(taskflow).wait()` returns in `CoreSystem::run` ("the call returns
only after every node ... completes"). -/
def everyUnitDone (cs : CoreSystem) (trace : List Ev) : Bool :=
  allDone cs.graph trace.reverse

end CoreSystem

/-- The element `x` lies on a cycle of `r`. -/
def OnCycle {α : Type} (r : α → α → Prop) (x : α) : Prop :=
  Relation.TransGen r x x

/-- Two units, `"A"` and `"B"`, where `"B"` is declared to depend on itself. -/
def selfDependent : CoreSystem :=
  (((CoreSystem.new.addSystem "A" (some ⟨0, Kind.InputSystem⟩)).addSystem
    "B" (some ⟨1, Kind.RenderSystem⟩)).setDependencies "A" "B").setDependencies "B" "B"

namespace CoreSystem

/-- What an event of the execution does to the store: a start hands the task to
a worker; a completion is the moment at which the lambda of the task has run
through, so it is possible only when `taskBody` returns (it does not when the
handle is null or when `run()` of the object does not return). The lambda is
taken to act on the store in one step. -/
def applyEvent (cs : CoreSystem) (runOf : Ptr → Heap → Option Heap) (e : Ev) (heap : Heap) :
    Option Heap :=
  match e with
  | Ev.start _ => some heap
  | Ev.finish t =>
    match cs.graph.nodes[t]? with
    | none => none
    | some w => cs.taskBody runOf w heap

/-- The events `past`, latest first, are an execution of the graph of
`CoreSystem::run` from the store `heap0` in which the executor admits every
event and every completed task is one whose lambda has returned; the result is
the store afterwards. -/
def executeTasks (cs : CoreSystem) (runOf : Ptr → Heap → Option Heap) (heap0 : Heap) :
    List Ev → Option Heap
  | [] => some heap0
  | e :: past =>
    match executeTasks cs runOf heap0 past with
    | none => none
    | some heap =>
      if enabled cs.graph cs.systems.size past e then cs.applyEvent runOf e heap else none

/-- `CoreSystem::run` up to some moment, with the units: `trace`, in time order,
is what has happened so far in `executor.run(taskflow).wait()`, where `runOf`
is the virtual `run()` of the objects and `heap0` the store at the call. The
result is the store after `trace`, `none` when `trace` cannot happen. -/
def runWith (cs : CoreSystem) (runOf : Ptr → Heap → Option Heap) (heap0 : Heap)
    (trace : List Ev) : Option Heap :=
  cs.executeTasks runOf heap0 trace.reverse

end CoreSystem

theorem find_assignList_self {V : Type} (l : List (String × V)) (k : String) (v : V) :
    (assignList l k v).find? (fun e => decide (e.1 = k)) = some (k, v) := by
  induction l with
  | nil => simp [assignList]
  | cons e rest ih =>
    obtain ⟨k', v'⟩ := e
    by_cases h : k' = k
    · simp [assignList, h]
    · simp [assignList, h, List.find?_cons, ih]

theorem find_assignList_ne {V : Type} (l : List (String × V)) (k k' : String) (v : V)
    (hne : k' ≠ k) :
    (assignList l k v).find? (fun e => decide (e.1 = k')) =
      l.find? (fun e => decide (e.1 = k')) := by
  induction l with
  | nil => simp [assignList, List.find?_cons, Ne.symm hne]
  | cons e rest ih =>
    obtain ⟨k1, v1⟩ := e
    by_cases h : k1 = k
    · subst h
      simp [assignList, List.find?_cons, Ne.symm hne]
    · by_cases h1 : k1 = k'
      · subst h1
        simp [assignList, h, List.find?_cons]
      · simp [assignList, h, List.find?_cons, h1, ih]

theorem length_assignList {V : Type} (l : List (String × V)) (k : String) (v : V) :
    (assignList l k v).length =
      if (l.find? (fun e => decide (e.1 = k))).isSome then l.length else l.length + 1 := by
  induction l with
  | nil => simp [assignList]
  | cons e rest ih =>
    obtain ⟨k1, v1⟩ := e
    by_cases h : k1 = k
    · simp [assignList, h]
    · simp only [assignList, h, if_false, List.length_cons, ih, List.find?_cons, decide_False]
      split <;> rfl

namespace UMap

variable {V : Type}

theorem find_assign_self (m : UMap V) (k : String) (v : V) :
    (m.assign k v).find? k = some v := by
  simp [find?, assign, find_assignList_self]

theorem find_assign_ne (m : UMap V) (k k' : String) (v : V) (hne : k' ≠ k) :
    (m.assign k v).find? k' = m.find? k' := by
  simp [find?, assign, find_assignList_ne _ _ _ _ hne]

theorem size_assign (m : UMap V) (k : String) (v : V) :
    (m.assign k v).size = if m.count k = 0 then m.size + 1 else m.size := by
  simp only [size, assign, length_assignList, count, find?, Option.isSome_map']
  split <;> simp

theorem count_eq_zero_iff (m : UMap V) (k : String) : m.count k = 0 ↔ m.find? k = none := by
  unfold count
  cases h : m.find? k <;> simp

theorem count_ne_zero_iff (m : UMap V) (k : String) :
    m.count k ≠ 0 ↔ ∃ v, m.find? k = some v := by
  unfold count
  cases h : m.find? k <;> simp

theorem index_of_find (m : UMap V) (k : String) (dflt v : V) (h : m.find? k = some v) :
    m.index k dflt = (v, m) := by
  simp [index, h]

end UMap

namespace CoreSystem

theorem getSystem_of_find (T : Kind) (cs : CoreSystem) (name : String) (h : Handle)
    (hf : cs.systems.find? name = some h) :
    cs.getSystem T name = (dynamicPointerCast T h, cs) := by
  have hc : cs.systems.count name ≠ 0 := (UMap.count_ne_zero_iff _ _).2 ⟨h, hf⟩
  simp only [getSystem, hc, ne_eq, not_false_eq_true, if_true, UMap.index_of_find _ _ _ _ hf]

theorem getSystem_of_not_find (T : Kind) (cs : CoreSystem) (name : String)
    (hf : cs.systems.find? name = none) :
    cs.getSystem T name = (none, cs) := by
  have hc : cs.systems.count name = 0 := (UMap.count_eq_zero_iff _ _).2 hf
  simp [getSystem, hc]

end CoreSystem

theorem dynamicPointerCast_eq_none_iff (T : Kind) (h : Handle) :
    dynamicPointerCast T h = none ↔ ¬ h.hasType T := by
  cases h with
  | none => simp [dynamicPointerCast, Handle.hasType]
  | some p =>
    by_cases hk : p.kind.isA T = true
    · simp [dynamicPointerCast, Handle.hasType, hk]
    · simp [dynamicPointerCast, Handle.hasType, hk]

theorem dynamicPointerCast_of_ne_none (T : Kind) (h : Handle)
    (hne : dynamicPointerCast T h ≠ none) : dynamicPointerCast T h = h := by
  cases h with
  | none => rfl
  | some p =>
    by_cases hk : p.kind.isA T = true
    · simp [dynamicPointerCast, hk]
    · simp [dynamicPointerCast, hk] at hne

theorem dynamicPointerCast_ISystem (h : Handle) : dynamicPointerCast Kind.ISystem h = h := by
  cases h with
  | none => rfl
  | some p => simp [dynamicPointerCast, Kind.isA]

/-! ## Registry contracts -/

/-- C5: `addSystem(name, system)` is last-write-wins. Afterwards the handle
stored under `name` is `system` (so `getSystem<T>(name)` is the cast of `system`,
and `system` itself for `T = ISystem`), whether or not `name` was registered;
the handle stored under every other name, and what `getSystem` returns for it,
is as before; the number of units grows by one when `name` was new and stays
the same otherwise; the dependency list is unchanged. -/
theorem addSystem_last_write_wins (cs : CoreSystem) (name : String) (system : Handle) :
    (cs.addSystem name system).systems.find? name = some system ∧
    (∀ T, ((cs.addSystem name system).getSystem T name).1 = dynamicPointerCast T system) ∧
    ((cs.addSystem name system).getSystem Kind.ISystem name).1 = system ∧
    (∀ other, other ≠ name →
      (cs.addSystem name system).systems.find? other = cs.systems.find? other ∧
      ∀ T, ((cs.addSystem name system).getSystem T other).1 = (cs.getSystem T other).1) ∧
    (cs.addSystem name system).systems.size =
      (if cs.systems.count name = 0 then cs.systems.size + 1 else cs.systems.size) ∧
    (cs.addSystem name system).dependencies = cs.dependencies := by
  have hself : (cs.addSystem name system).systems.find? name = some system :=
    UMap.find_assign_self _ _ _
  refine ⟨hself, ?_, ?_, ?_, UMap.size_assign _ _ _, rfl⟩
  · intro T
    rw [CoreSystem.getSystem_of_find T _ name system hself]
  · rw [CoreSystem.getSystem_of_find _ _ name system hself, dynamicPointerCast_ISystem]
  · intro other hne
    have hother : (cs.addSystem name system).systems.find? other = cs.systems.find? other :=
      UMap.find_assign_ne _ _ _ _ hne
    refine ⟨hother, ?_⟩
    intro T
    cases hf : cs.systems.find? other with
    | none =>
      rw [CoreSystem.getSystem_of_not_find T _ other (hother.trans hf),
        CoreSystem.getSystem_of_not_find T _ other hf]
    | some h =>
      rw [CoreSystem.getSystem_of_find T _ other h (hother.trans hf),
        CoreSystem.getSystem_of_find T _ other h hf]

/-- C6: `getSystem<T>(name)` leaves the `CoreSystem` as it was; it returns null
exactly when `name` is not registered or the handle registered under `name`
does not point to an object of type `T` (a null handle points to none); when
the result is not null it is the handle registered under `name`. -/
theorem getSystem_absent_iff (T : Kind) (cs : CoreSystem) (name : String) :
    (cs.getSystem T name).2 = cs ∧
    ((cs.getSystem T name).1 = none ↔
      (cs.systems.find? name = none ∨
        ∃ h, cs.systems.find? name = some h ∧ ¬ h.hasType T)) ∧
    ((cs.getSystem T name).1 ≠ none →
      cs.systems.find? name = some (cs.getSystem T name).1) := by
  cases hf : cs.systems.find? name with
  | none =>
    rw [CoreSystem.getSystem_of_not_find T cs name hf]
    simp
  | some h =>
    rw [CoreSystem.getSystem_of_find T cs name h hf]
    refine ⟨rfl, ?_, ?_⟩
    · simp [dynamicPointerCast_eq_none_iff]
    · intro hne
      simp only at hne ⊢
      rw [dynamicPointerCast_of_ne_none T h hne]


/-! ## The dispatch loop -/

namespace EventSystem

theorem dispatchLoop_of_no_match (nameEvent : String) (l : List (String × Callback))
    (h : ∀ e ∈ l, e.1 ≠ nameEvent) (i : Nat) (msg : String) :
    dispatchLoop nameEvent l i msg = ([], some msg) := by
  induction l generalizing i with
  | nil => rfl
  | cons e rest ih =>
    obtain ⟨name, func⟩ := e
    have hne : ¬ nameEvent = name := fun he => h (name, func) (List.mem_cons_self _ _) he.symm
    simp only [dispatchLoop, hne, if_false]
    exact ih (fun e he => h e (List.mem_cons_of_mem _ he)) (i + 1)

/-- Every listener called by the loop is at a position of the remaining list
and is registered under the dispatched name. -/
theorem dispatchLoop_mem (nameEvent : String) (l : List (String × Callback)) (i : Nat)
    (msg : String) (j : Nat)
    (hj : j ∈ (dispatchLoop nameEvent l i msg).1.map Invocation.listener) :
    ∃ k, j = i + k ∧ (l[k]?).map Prod.fst = some nameEvent := by
  induction l generalizing i msg with
  | nil => simp [dispatchLoop] at hj
  | cons e rest ih =>
    obtain ⟨name, func⟩ := e
    by_cases hn : nameEvent = name
    · cases hf : func msg with
      | none =>
        simp only [dispatchLoop, hn, if_true, hf, List.map_cons, List.map_nil,
          List.mem_singleton] at hj
        exact ⟨0, by omega, by simp [hn]⟩
      | some msg' =>
        simp only [dispatchLoop, hn, if_true, hf, List.map_cons, List.mem_cons] at hj
        rcases hj with hj | hj
        · exact ⟨0, by omega, by simp [hn]⟩
        · have hj' : j ∈ (dispatchLoop nameEvent rest (i + 1) msg').1.map Invocation.listener := by
            rw [hn]; exact hj
          obtain ⟨k, hk, hm⟩ := ih (i + 1) msg' hj'
          exact ⟨k + 1, by omega, by simpa using hm⟩
    · simp only [dispatchLoop, hn, if_false] at hj
      obtain ⟨k, hk, hm⟩ := ih (i + 1) msg hj
      exact ⟨k + 1, by omega, by simpa using hm⟩

theorem dispatchLoop_sorted (nameEvent : String) (l : List (String × Callback)) (i : Nat)
    (msg : String) :
    ((dispatchLoop nameEvent l i msg).1.map Invocation.listener).Sorted (· < ·) := by
  induction l generalizing i msg with
  | nil => simp [dispatchLoop]
  | cons e rest ih =>
    obtain ⟨name, func⟩ := e
    by_cases hn : nameEvent = name
    · cases hf : func msg with
      | none => simp [dispatchLoop, hn, hf]
      | some msg' =>
        simp only [dispatchLoop, hn, if_true, hf, List.map_cons, List.sorted_cons]
        refine ⟨?_, ?_⟩
        · intro j hj
          have hj' : j ∈ (dispatchLoop nameEvent rest (i + 1) msg').1.map Invocation.listener := by
            rw [hn]; exact hj
          obtain ⟨k, hk, _⟩ := dispatchLoop_mem nameEvent rest (i + 1) msg' j hj'
          omega
        · have := ih (i + 1) msg'
          rw [hn] at this
          exact this
    · simp only [dispatchLoop, hn, if_false]
      exact ih (i + 1) msg

/-- The loop skips no listener registered under the dispatched name that
stands before one it calls. -/
theorem dispatchLoop_prefix (nameEvent : String) (l : List (String × Callback)) (i : Nat)
    (msg : String) (k k' : Nat)
    (hk : i + k ∈ (dispatchLoop nameEvent l i msg).1.map Invocation.listener)
    (hlt : k' < k) (hm : (l[k']?).map Prod.fst = some nameEvent) :
    i + k' ∈ (dispatchLoop nameEvent l i msg).1.map Invocation.listener := by
  induction l generalizing i msg k k' with
  | nil => simp [dispatchLoop] at hk
  | cons e rest ih =>
    obtain ⟨name, func⟩ := e
    by_cases hn : nameEvent = name
    · cases hf : func msg with
      | none =>
        simp only [dispatchLoop, hn, if_true, hf, List.map_cons, List.map_nil,
          List.mem_singleton] at hk
        omega
      | some msg' =>
        simp only [dispatchLoop, hn, if_true, hf, List.map_cons, List.mem_cons] at hk ⊢
        cases k' with
        | zero => left; rfl
        | succ k'' =>
          right
          rcases hk with hk | hk
          · omega
          · obtain ⟨k0, rfl⟩ : ∃ k0, k = k0 + 1 := ⟨k - 1, by omega⟩
            have e1 : i + (k0 + 1) = i + 1 + k0 := by omega
            have e2 : i + (k'' + 1) = i + 1 + k'' := by omega
            rw [e1] at hk
            rw [e2]
            have := ih (i + 1) msg' k0 k'' (by rw [hn]; exact hk) (by omega) (by simpa using hm)
            rw [hn] at this
            exact this
    · simp only [dispatchLoop, hn, if_false] at hk ⊢
      cases k' with
      | zero =>
        exfalso
        simp at hm
        exact hn hm.symm
      | succ k'' =>
        obtain ⟨k0, rfl⟩ : ∃ k0, k = k0 + 1 := ⟨k - 1, by omega⟩
        have e1 : i + (k0 + 1) = i + 1 + k0 := by omega
        have e2 : i + (k'' + 1) = i + 1 + k'' := by omega
        rw [e1] at hk
        rw [e2]
        exact ih (i + 1) msg k0 k'' hk (by omega) (by simpa using hm)

/-- When the loop is left normally, every listener registered under the
dispatched name has been called. -/
theorem dispatchLoop_complete (nameEvent : String) (l : List (String × Callback)) (i : Nat)
    (msg : String) (hret : (dispatchLoop nameEvent l i msg).2.isSome = true) (k : Nat)
    (hm : (l[k]?).map Prod.fst = some nameEvent) :
    i + k ∈ (dispatchLoop nameEvent l i msg).1.map Invocation.listener := by
  induction l generalizing i msg k with
  | nil => simp at hm
  | cons e rest ih =>
    obtain ⟨name, func⟩ := e
    by_cases hn : nameEvent = name
    · cases hf : func msg with
      | none => simp [dispatchLoop, hn, hf] at hret
      | some msg' =>
        simp only [dispatchLoop, hn, if_true, hf, List.map_cons, List.mem_cons] at hret ⊢
        cases k with
        | zero => left; rfl
        | succ k0 =>
          right
          have e1 : i + (k0 + 1) = i + 1 + k0 := by omega
          rw [e1]
          have := ih (i + 1) msg' (by rw [hn]; exact hret) k0 (by simpa using hm)
          rw [hn] at this
          exact this
    · simp only [dispatchLoop, hn, if_false] at hret ⊢
      cases k with
      | zero =>
        exfalso
        simp at hm
        exact hn hm.symm
      | succ k0 =>
        have e1 : i + (k0 + 1) = i + 1 + k0 := by omega
        rw [e1]
        exact ih (i + 1) msg hret k0 (by simpa using hm)

/-- The first call of the loop receives the local string as it stands. -/
theorem dispatchLoop_head (nameEvent : String) (l : List (String × Callback)) (i : Nat)
    (msg : String) (first : Invocation)
    (h : (dispatchLoop nameEvent l i msg).1.head? = some first) : first.arg = msg := by
  induction l generalizing i with
  | nil => simp [dispatchLoop] at h
  | cons e rest ih =>
    obtain ⟨name, func⟩ := e
    by_cases hn : nameEvent = name
    · cases hf : func msg with
      | none =>
        simp [dispatchLoop, hn, hf] at h
        rw [← h]
      | some msg' =>
        simp [dispatchLoop, hn, hf] at h
        rw [← h]
    · simp only [dispatchLoop, hn, if_false] at h
      exact ih (i + 1) h

/-- The first listener registered under the dispatched name is the first one
called, on the local string as it stands. -/
theorem dispatchLoop_head_first (nameEvent : String) (l : List (String × Callback)) (i : Nat)
    (msg : String) (k : Nat) (hk : (l[k]?).map Prod.fst = some nameEvent)
    (hfirst : ∀ k', k' < k → (l[k']?).map Prod.fst ≠ some nameEvent) :
    (dispatchLoop nameEvent l i msg).1.head? = some ⟨i + k, msg⟩ := by
  induction l generalizing i k with
  | nil => simp at hk
  | cons e rest ih =>
    obtain ⟨name, func⟩ := e
    by_cases hn : nameEvent = name
    · have hk0 : k = 0 := by
        by_contra hne
        exact hfirst 0 (Nat.pos_of_ne_zero hne) (by simp [hn])
      subst hk0
      cases hf : func msg with
      | none => simp [dispatchLoop, hn, hf]
      | some msg' => simp [dispatchLoop, hn, hf]
    · simp only [dispatchLoop, hn, if_false]
      cases k with
      | zero =>
        exfalso
        simp at hk
        exact hn hk.symm
      | succ k0 =>
        have e1 : i + (k0 + 1) = i + 1 + k0 := by omega
        rw [e1]
        refine ih (i + 1) k0 (by simpa using hk) ?_
        intro k' hk'
        have := hfirst (k' + 1) (by omega)
        simpa using this

/-- Each call after the first receives what the callback called just before
it has left. -/
theorem dispatchLoop_chain (nameEvent : String) (l : List (String × Callback)) (i : Nat)
    (msg : String) (n : Nat) (a b : Invocation)
    (ha : (dispatchLoop nameEvent l i msg).1[n]? = some a)
    (hb : (dispatchLoop nameEvent l i msg).1[n + 1]? = some b) :
    ∃ k f, a.listener = i + k ∧ l[k]? = some (nameEvent, f) ∧ f a.arg = some b.arg := by
  induction l generalizing i msg n with
  | nil => simp [dispatchLoop] at ha
  | cons e rest ih =>
    obtain ⟨name, func⟩ := e
    by_cases hn : nameEvent = name
    · cases hf : func msg with
      | none => simp [dispatchLoop, hn, hf] at hb
      | some msg' =>
        simp only [dispatchLoop, hn, if_true, hf] at ha hb
        cases n with
        | zero =>
          simp only [List.getElem?_cons_zero, Option.some.injEq] at ha
          simp only [List.getElem?_cons_succ] at hb
          have hb' : (dispatchLoop nameEvent rest (i + 1) msg').1.head? = some b := by
            rw [hn, List.head?_eq_getElem?]; exact hb
          have := dispatchLoop_head nameEvent rest (i + 1) msg' b hb'
          refine ⟨0, func, ?_, by simp [hn], ?_⟩
          · rw [← ha]; rfl
          · rw [← ha, this]; exact hf
        | succ n0 =>
          simp only [List.getElem?_cons_succ] at ha hb
          obtain ⟨k, f, h1, h2, h3⟩ :=
            ih (i + 1) msg' n0 (by rw [hn]; exact ha) (by rw [hn]; exact hb)
          exact ⟨k + 1, f, by omega, by simpa using h2, h3⟩
    · simp only [dispatchLoop, hn, if_false] at ha hb
      obtain ⟨k, f, h1, h2, h3⟩ := ih (i + 1) msg n ha hb
      exact ⟨k + 1, f, by omega, by simpa using h2, h3⟩

/-- The local string when the loop is left: untouched when nothing was called,
otherwise what the last callback has left; and when the loop is not left
normally, the last callback called is one that did not return. -/
theorem dispatchLoop_last (nameEvent : String) (l : List (String × Callback)) (i : Nat)
    (msg : String) :
    ((dispatchLoop nameEvent l i msg).1 = [] ∧ (dispatchLoop nameEvent l i msg).2 = some msg) ∨
    ∃ last k f, (dispatchLoop nameEvent l i msg).1.getLast? = some last ∧
      last.listener = i + k ∧ l[k]? = some (nameEvent, f) ∧
      f last.arg = (dispatchLoop nameEvent l i msg).2 := by
  induction l generalizing i msg with
  | nil => left; simp [dispatchLoop]
  | cons e rest ih =>
    obtain ⟨name, func⟩ := e
    by_cases hn : nameEvent = name
    · right
      cases hf : func msg with
      | none =>
        refine ⟨⟨i, msg⟩, 0, func, ?_, rfl, by simp [hn], ?_⟩
        · simp [dispatchLoop, hn, hf]
        · simp [dispatchLoop, hn, hf]
      | some msg' =>
        simp only [dispatchLoop, hn, if_true, hf]
        have ih' := ih (i + 1) msg'
        rw [hn] at ih'
        rcases ih' with ⟨h1, h2⟩ | ⟨last, k, f, h1, h2, h3, h4⟩
        · refine ⟨⟨i, msg⟩, 0, func, ?_, rfl, by simp, ?_⟩
          · rw [h1]; rfl
          · rw [h2]; exact hf
        · refine ⟨last, k + 1, f, ?_, by omega, by simpa using h3, h4⟩
          rw [List.getLast?_cons, h1]
          rfl
    · simp only [dispatchLoop, hn, if_false]
      rcases ih (i + 1) msg with h | ⟨last, k, f, h1, h2, h3, h4⟩
      · left; exact h
      · right
        exact ⟨last, k + 1, f, h1, by omega, by simpa using h3, h4⟩

/-- A callback that does not return is the last one the loop calls, and the
loop is then not left normally. -/
theorem dispatchLoop_exit_last (nameEvent : String) (l : List (String × Callback)) (i : Nat)
    (msg : String) (n : Nat) (a : Invocation) (k : Nat) (f : Callback)
    (ha : (dispatchLoop nameEvent l i msg).1[n]? = some a)
    (hk : a.listener = i + k) (hf : l[k]? = some (nameEvent, f)) (hnone : f a.arg = none) :
    (dispatchLoop nameEvent l i msg).1[n + 1]? = none ∧
      (dispatchLoop nameEvent l i msg).2 = none := by
  have hnext : (dispatchLoop nameEvent l i msg).1[n + 1]? = none := by
    cases hb : (dispatchLoop nameEvent l i msg).1[n + 1]? with
    | none => rfl
    | some b =>
      obtain ⟨k', f', h1, h2, h3⟩ := dispatchLoop_chain nameEvent l i msg n a b ha hb
      have hkk : k' = k := by omega
      subst hkk
      rw [hf] at h2
      have hff : f = f' := by
        have := Option.some.inj h2
        exact (Prod.mk.inj this).2
      subst hff
      rw [hnone] at h3
      cases h3
  refine ⟨hnext, ?_⟩
  rcases dispatchLoop_last nameEvent l i msg with ⟨h1, _⟩ | ⟨last, k', f', hl, h2, h3, h4⟩
  · rw [h1] at ha
    simp at ha
  · have hlen : (dispatchLoop nameEvent l i msg).1.length = n + 1 := by
      have h5 := List.getElem?_eq_none_iff.1 hnext
      obtain ⟨h6, _⟩ := List.getElem?_eq_some.1 ha
      omega
    rw [List.getLast?_eq_getElem?, hlen, Nat.add_sub_cancel, ha] at hl
    have hla : a = last := Option.some.inj hl
    subst hla
    have hkk : k' = k := by omega
    subst hkk
    rw [hf] at h3
    have hff : f = f' := (Prod.mk.inj (Option.some.inj h3)).2
    subst hff
    rw [← h4]
    exact hnone

end EventSystem

/-! ## The graph that `run` builds -/

namespace UMap

variable {V : Type}

theorem find_eq_none_iff (m : UMap V) (k : String) :
    m.find? k = none ↔ k ∉ m.entries.map Prod.fst := by
  simp only [find?, Option.map_eq_none', List.find?_eq_none, List.mem_map, not_exists, not_and]
  constructor
  · intro h e he hk
    have := h e he
    simp [hk] at this
  · intro h e he
    simpa using h e he

theorem count_ne_zero_iff_mem (m : UMap V) (k : String) :
    m.count k ≠ 0 ↔ k ∈ m.entries.map Prod.fst := by
  rw [Ne, count_eq_zero_iff, find_eq_none_iff, not_not]

theorem count_eq_count_keys (m : UMap V) (k : String) :
    m.count k = (m.entries.map Prod.fst).count k := by
  by_cases h : k ∈ m.entries.map Prod.fst
  · rw [List.count_eq_one_of_mem m.nodup h]
    have := (count_ne_zero_iff_mem m k).2 h
    unfold count at this ⊢
    split
    · rfl
    · rename_i h'; simp [h'] at this
  · rw [List.count_eq_zero_of_not_mem h]
    have := (count_ne_zero_iff_mem m k).not.2 h
    simpa using this

end UMap

namespace CoreSystem

/-- The step of the first loop of `run`. -/
theorem buildTasks_fold (l : List (String × Handle)) (hl : (l.map Prod.fst).Nodup)
    (acc : Taskflow × UMap Task) :
    let r := l.foldl
      (fun (acc : Taskflow × UMap Task) e =>
        let r := acc.1.emplace ⟨e.1, e.2⟩
        (r.1, acc.2.assign e.1 r.2)) acc
    r.1.nodes = acc.1.nodes ++ l.map (fun e => (⟨e.1, e.2⟩ : TaskWork)) ∧
    r.1.edges = acc.1.edges ∧
    (∀ j e, l[j]? = some e → r.2.find? e.1 = some (acc.1.nodes.length + j)) ∧
    (∀ k, k ∉ l.map Prod.fst → r.2.find? k = acc.2.find? k) := by
  induction l generalizing acc with
  | nil => simp
  | cons e rest ih =>
    have hnd : e.1 ∉ rest.map Prod.fst ∧ (rest.map Prod.fst).Nodup := by
      rw [List.map_cons] at hl
      exact List.nodup_cons.1 hl
    have ih' := ih hnd.2 ((acc.1.emplace ⟨e.1, e.2⟩).1, acc.2.assign e.1 (acc.1.emplace ⟨e.1, e.2⟩).2)
    simp only [List.foldl_cons]
    obtain ⟨h1, h2, h3, h4⟩ := ih'
    refine ⟨?_, ?_, ?_, ?_⟩
    · rw [h1]; simp [Taskflow.emplace]
    · rw [h2]; rfl
    · intro j e' hj
      cases j with
      | zero =>
        simp only [List.getElem?_cons_zero, Option.some.injEq] at hj
        subst hj
        rw [h4 e.1 hnd.1]
        simp [Taskflow.emplace, UMap.find_assign_self]
      | succ j0 =>
        simp only [List.getElem?_cons_succ] at hj
        rw [h3 j0 e' hj]
        simp [Taskflow.emplace]
        omega
    · intro k hk
      simp only [List.map_cons, List.mem_cons, not_or] at hk
      rw [h4 k hk.2]
      exact UMap.find_assign_ne _ _ _ _ hk.1

theorem buildTasks_nodes (cs : CoreSystem) :
    cs.buildTasks.1.nodes = cs.systems.entries.map (fun e => (⟨e.1, e.2⟩ : TaskWork)) := by
  have := (buildTasks_fold cs.systems.entries cs.systems.nodup (⟨[], []⟩, UMap.empty)).1
  simpa [buildTasks] using this

theorem buildTasks_edges (cs : CoreSystem) : cs.buildTasks.1.edges = [] :=
  (buildTasks_fold cs.systems.entries cs.systems.nodup (⟨[], []⟩, UMap.empty)).2.1

/-- The handle stored in `tasks[name]` is the node made for `name`. -/
theorem tasks_find_iff (cs : CoreSystem) (name : String) (t : Task) :
    cs.tasks.find? name = some t ↔ (cs.systems.entries[t]?).map Prod.fst = some name := by
  obtain ⟨_, _, h3, h4⟩ :=
    buildTasks_fold cs.systems.entries cs.systems.nodup (⟨[], []⟩, UMap.empty)
  simp only [List.length_nil, Nat.zero_add] at h3
  constructor
  · intro hf
    by_cases hk : name ∈ cs.systems.entries.map Prod.fst
    · obtain ⟨e, he, rfl⟩ := List.mem_map.1 hk
      obtain ⟨j, hj⟩ := List.getElem?_of_mem he
      have := h3 j e hj
      have hjt : j = t := by
        have h5 : cs.tasks.find? e.1 = some j := this
        rw [hf] at h5
        exact (Option.some.inj h5).symm
      subst hjt
      simp [hj]
    · have := h4 name hk
      have h5 : cs.tasks.find? name = (UMap.empty : UMap Task).find? name := this
      rw [hf] at h5
      simp [UMap.find?, UMap.empty] at h5
  · intro hm
    cases he : cs.systems.entries[t]? with
    | none => simp [he] at hm
    | some e =>
      simp only [he, Option.map_some', Option.some.injEq] at hm
      subst hm
      exact h3 t e he

theorem tasks_count_iff (cs : CoreSystem) (name : String) :
    cs.tasks.count name ≠ 0 ↔ cs.systems.count name ≠ 0 := by
  rw [UMap.count_ne_zero_iff, UMap.count_ne_zero_iff_mem]
  constructor
  · rintro ⟨t, ht⟩
    have := (tasks_find_iff cs name t).1 ht
    cases he : cs.systems.entries[t]? with
    | none => simp [he] at this
    | some e =>
      simp only [he, Option.map_some', Option.some.injEq] at this
      exact List.mem_map.2 ⟨e, List.getElem?_mem he, this⟩
  · intro hk
    obtain ⟨e, he, rfl⟩ := List.mem_map.1 hk
    obtain ⟨j, hj⟩ := List.getElem?_of_mem he
    exact ⟨j, (tasks_find_iff cs e.1 j).2 (by simp [hj])⟩

theorem tasks_find_lt (cs : CoreSystem) (name : String) (t : Task)
    (h : cs.tasks.find? name = some t) : t < cs.systems.size := by
  have := (tasks_find_iff cs name t).1 h
  by_contra hlt
  have hnone : cs.systems.entries[t]? = none := List.getElem?_eq_none (Nat.le_of_not_lt hlt)
  simp [hnone] at this

theorem tasks_find_inj (cs : CoreSystem) (n1 n2 : String) (t : Task)
    (h1 : cs.tasks.find? n1 = some t) (h2 : cs.tasks.find? n2 = some t) : n1 = n2 := by
  have a := (tasks_find_iff cs n1 t).1 h1
  have b := (tasks_find_iff cs n2 t).1 h2
  rw [a] at b
  exact Option.some.inj b

/-- The step of the second loop of `run`. -/
theorem addPrecedences_spec (tasks : UMap Task) (deps : List (String × String))
    (tf : Taskflow) :
    (addPrecedences tasks deps tf).nodes = tf.nodes ∧
    (addPrecedences tasks deps tf).edges = tf.edges ++ deps.filterMap (edgeOf tasks) := by
  induction deps generalizing tf with
  | nil => simp [addPrecedences]
  | cons d rest ih =>
    unfold addPrecedences at ih ⊢
    simp only [List.foldl_cons]
    cases h1 : tasks.find? d.1 with
    | none =>
      have hc : tasks.count d.1 = 0 := (UMap.count_eq_zero_iff _ _).2 h1
      simp only [hc, ne_eq, not_true_eq_false, false_and, if_false]
      rw [(ih tf).1, (ih tf).2]
      simp [List.filterMap_cons, edgeOf, h1]
    | some b =>
      cases h2 : tasks.find? d.2 with
      | none =>
        have hc : tasks.count d.2 = 0 := (UMap.count_eq_zero_iff _ _).2 h2
        simp only [hc, ne_eq, not_true_eq_false, and_false, if_false]
        rw [(ih tf).1, (ih tf).2]
        simp [List.filterMap_cons, edgeOf, h1, h2]
      | some a =>
        have hc1 : tasks.count d.1 ≠ 0 := (UMap.count_ne_zero_iff _ _).2 ⟨b, h1⟩
        have hc2 : tasks.count d.2 ≠ 0 := (UMap.count_ne_zero_iff _ _).2 ⟨a, h2⟩
        simp only [hc1, hc2, ne_eq, not_false_eq_true, and_self, if_true]
        rw [(ih (tf.precede b a)).1, (ih (tf.precede b a)).2]
        simp [List.filterMap_cons, edgeOf, h1, h2, Taskflow.precede]

theorem graph_nodes (cs : CoreSystem) :
    cs.graph.nodes = cs.systems.entries.map (fun e => (⟨e.1, e.2⟩ : TaskWork)) := by
  unfold graph
  rw [(addPrecedences_spec _ _ _).1, buildTasks_nodes]

theorem graph_nodes_length (cs : CoreSystem) : cs.graph.nodes.length = cs.systems.size := by
  rw [graph_nodes, List.length_map]; rfl

theorem graph_edges (cs : CoreSystem) :
    cs.graph.edges = cs.dependencies.filterMap (edgeOf cs.tasks) := by
  unfold graph
  rw [(addPrecedences_spec _ _ _).2, buildTasks_edges]
  rfl

theorem mem_graph_edges (cs : CoreSystem) (tb ta : Task) :
    (tb, ta) ∈ cs.graph.edges ↔
      ∃ before after, cs.RegisteredEdge before after ∧
        cs.tasks.find? before = some tb ∧ cs.tasks.find? after = some ta := by
  rw [graph_edges, List.mem_filterMap]
  constructor
  · rintro ⟨⟨before, after⟩, hd, he⟩
    unfold edgeOf at he
    cases h1 : cs.tasks.find? before with
    | none => simp [h1] at he
    | some b =>
      cases h2 : cs.tasks.find? after with
      | none => simp [h1, h2] at he
      | some a =>
        simp only [h1, h2, Option.some.injEq, Prod.mk.injEq] at he
        obtain ⟨rfl, rfl⟩ := he
        refine ⟨before, after, ⟨hd, ?_, ?_⟩, h1, h2⟩
        · exact (tasks_count_iff cs before).1 ((UMap.count_ne_zero_iff _ _).2 ⟨b, h1⟩)
        · exact (tasks_count_iff cs after).1 ((UMap.count_ne_zero_iff _ _).2 ⟨a, h2⟩)
  · rintro ⟨before, after, ⟨hd, _, _⟩, h1, h2⟩
    exact ⟨(before, after), hd, by simp [edgeOf, h1, h2]⟩

theorem graph_edges_length (cs : CoreSystem) :
    cs.graph.edges.length =
      (cs.dependencies.filter
        (fun d => decide (cs.systems.count d.1 ≠ 0 ∧ cs.systems.count d.2 ≠ 0))).length := by
  rw [graph_edges]
  induction cs.dependencies with
  | nil => rfl
  | cons d rest ih =>
    rw [List.filterMap_cons, List.filter_cons]
    cases h1 : cs.tasks.find? d.1 with
    | none =>
      have hc : cs.systems.count d.1 = 0 := by
        have := (tasks_count_iff cs d.1).not.1 (by
          rw [Ne, not_not]; exact (UMap.count_eq_zero_iff _ _).2 h1)
        simpa using this
      simp [edgeOf, h1, hc, ih]
    | some b =>
      have hc1 : cs.systems.count d.1 ≠ 0 :=
        (tasks_count_iff cs d.1).1 ((UMap.count_ne_zero_iff _ _).2 ⟨b, h1⟩)
      cases h2 : cs.tasks.find? d.2 with
      | none =>
        have hc : cs.systems.count d.2 = 0 := by
          have := (tasks_count_iff cs d.2).not.1 (by
            rw [Ne, not_not]; exact (UMap.count_eq_zero_iff _ _).2 h2)
          simpa using this
        simp [edgeOf, h1, h2, hc, ih]
      | some a =>
        have hc2 : cs.systems.count d.2 ≠ 0 :=
          (tasks_count_iff cs d.2).1 ((UMap.count_ne_zero_iff _ _).2 ⟨a, h2⟩)
        simp [edgeOf, h1, h2, hc1, hc2, ih]

end CoreSystem

/-! ## Executions of a task graph -/

theorem started_iff (past : List Ev) (t : Task) : started past t = true ↔ Ev.start t ∈ past := by
  simp [started]

theorem done_iff (past : List Ev) (t : Task) : done past t = true ↔ Ev.finish t ∈ past := by
  simp [done]

theorem isExecution_cons (tf : Taskflow) (W : Nat) (e : Ev) (past : List Ev) :
    isExecution tf W (e :: past) = true ↔
      isExecution tf W past = true ∧ enabled tf W past e = true := by
  simp [isExecution]

/-- What has happened before a moment of an execution is an execution. -/
theorem isExecution_suffix (tf : Taskflow) (W : Nat) (l1 l2 : List Ev)
    (h : isExecution tf W (l1 ++ l2) = true) : isExecution tf W l2 = true := by
  induction l1 with
  | nil => exact h
  | cons e rest ih =>
    rw [List.cons_append, isExecution_cons] at h
    exact ih h.1

theorem enabled_start (tf : Taskflow) (W : Nat) (past : List Ev) (t : Task) :
    enabled tf W past (Ev.start t) = true ↔
      t < tf.nodes.length ∧ Ev.start t ∉ past ∧
      (∀ e ∈ tf.edges, e.2 = t → Ev.finish e.1 ∈ past) ∧
      (runningTasks tf past).length < W := by
  simp only [enabled, ready, Bool.and_eq_true, decide_eq_true_eq, Bool.not_eq_true',
    List.all_eq_true, Bool.or_eq_true, ← Bool.not_eq_true, started_iff, done_iff, and_assoc]
  constructor
  · rintro ⟨h1, h2, h3, h4⟩
    refine ⟨h1, h2, ?_, h4⟩
    intro e he het
    rcases h3 e he with h | h
    · exact absurd het h
    · exact h
  · rintro ⟨h1, h2, h3, h4⟩
    refine ⟨h1, h2, ?_, h4⟩
    intro e he
    by_cases het : e.2 = t
    · right; exact h3 e he het
    · left; exact het

theorem enabled_finish (tf : Taskflow) (W : Nat) (past : List Ev) (t : Task) :
    enabled tf W past (Ev.finish t) = true ↔ Ev.start t ∈ past ∧ Ev.finish t ∉ past := by
  simp [enabled, started, done]

/-- A task that has completed has started. -/
theorem finish_started (tf : Taskflow) (W : Nat) (past : List Ev)
    (h : isExecution tf W past = true) (t : Task) (hf : Ev.finish t ∈ past) :
    Ev.start t ∈ past := by
  induction past with
  | nil => simp at hf
  | cons e rest ih =>
    rw [isExecution_cons] at h
    rcases List.mem_cons.1 hf with hf | hf
    · subst hf
      exact List.mem_cons_of_mem _ ((enabled_finish tf W rest t).1 h.2).1
    · exact List.mem_cons_of_mem _ (ih h.1 hf)

/-- When a task starts, each of its predecessors has completed before. -/
theorem precedence_respected (tf : Taskflow) (W : Nat) (l1 l2 : List Ev) (b a : Task)
    (h : isExecution tf W (l1 ++ Ev.start a :: l2) = true) (he : (b, a) ∈ tf.edges) :
    Ev.finish b ∈ l2 := by
  have h' := isExecution_suffix tf W l1 _ h
  rw [isExecution_cons] at h'
  exact ((enabled_start tf W l2 a).1 h'.2).2.2.1 (b, a) he rfl

/-- A node on a cycle of the constraints has a predecessor on a cycle. -/
theorem onCycle_pred {α : Type} (r : α → α → Prop) (x : α) (h : OnCycle r x) :
    ∃ b, r b x ∧ OnCycle r b := by
  obtain ⟨b, hb, hbx⟩ := Relation.TransGen.tail'_iff.1 h
  exact ⟨b, hbx, Relation.TransGen.head' hbx hb⟩

/-- A task on a cycle of the constraints never starts. -/
theorem onCycle_never_starts (tf : Taskflow) (W : Nat) (past : List Ev)
    (h : isExecution tf W past = true) (t : Task)
    (hc : OnCycle (fun b a => (b, a) ∈ tf.edges) t) : Ev.start t ∉ past := by
  induction past generalizing t with
  | nil => simp
  | cons e rest ih =>
    rw [isExecution_cons] at h
    intro hs
    rcases List.mem_cons.1 hs with hs | hs
    · subst hs
      obtain ⟨b, hb, hbc⟩ := onCycle_pred _ t hc
      have hfin := ((enabled_start tf W rest t).1 h.2).2.2.1 (b, t) hb rfl
      exact ih h.1 b hbc (finish_started tf W rest h.1 b hfin)
    · exact ih h.1 t hc hs

theorem allDone_iff (tf : Taskflow) (past : List Ev) :
    allDone tf past = true ↔ ∀ t, t < tf.nodes.length → Ev.finish t ∈ past := by
  simp [allDone, done]

namespace CoreSystem

theorem executeTasks_cons (cs : CoreSystem) (runOf : Ptr → Heap → Option Heap) (heap0 : Heap)
    (e : Ev) (past : List Ev) (h : Heap) :
    cs.executeTasks runOf heap0 (e :: past) = some h ↔
      ∃ heap, cs.executeTasks runOf heap0 past = some heap ∧
        enabled cs.graph cs.systems.size past e = true ∧ cs.applyEvent runOf e heap = some h := by
  cases hp : cs.executeTasks runOf heap0 past with
  | none => simp [executeTasks, hp]
  | some heap =>
    by_cases hen : enabled cs.graph cs.systems.size past e = true
    · simp [executeTasks, hp, hen]
    · simp [executeTasks, hp, hen]

/-- An execution with the units is a scheduling trace. -/
theorem isExecution_of_executeTasks (cs : CoreSystem) (runOf : Ptr → Heap → Option Heap)
    (heap0 : Heap) (past : List Ev)
    (h : (cs.executeTasks runOf heap0 past).isSome = true) :
    isExecution cs.graph cs.systems.size past = true := by
  induction past with
  | nil => rfl
  | cons e rest ih =>
    obtain ⟨h', hh⟩ := Option.isSome_iff_exists.1 h
    obtain ⟨heap, h1, h2, _⟩ := (executeTasks_cons cs runOf heap0 e rest h').1 hh
    rw [isExecution_cons]
    exact ⟨ih (by rw [h1]; rfl), h2⟩

/-- Every execution of `run` with the units is a scheduling trace of `run`, so
what holds in every scheduling trace holds in every execution. -/
theorem run_of_runWith (cs : CoreSystem) (runOf : Ptr → Heap → Option Heap) (heap0 : Heap)
    (trace : List Ev) (h : (cs.runWith runOf heap0 trace).isSome = true) :
    cs.run trace = true :=
  isExecution_of_executeTasks cs runOf heap0 trace.reverse h

end CoreSystem

/-! ## The program of `main` -/

/-- The graph that `run` builds from the registry of `main`: four nodes, and
`EventSystem` before each of the three other units. -/
theorem mainCore_graph :
    mainCore.graph = ⟨[⟨"EventSystem", some ⟨0, Kind.EventSystem⟩⟩,
      ⟨"RenderSystem", some ⟨1, Kind.RenderSystem⟩⟩,
      ⟨"InputSystem", some ⟨2, Kind.InputSystem⟩⟩,
      ⟨"WindowSystem", some ⟨3, Kind.WindowSystem⟩⟩], [(0, 1), (0, 2), (0, 3)]⟩ := by
  decide

/-- In `main`, `RenderSystem` cannot start first, and can once `EventSystem`
is done, also while `InputSystem` runs. -/
theorem mainCore_run_examples :
    mainCore.run [Ev.start 1] = false ∧
    mainCore.run [Ev.start 0, Ev.start 1] = false ∧
    mainCore.run [Ev.start 0, Ev.finish 0, Ev.start 2, Ev.start 1, Ev.finish 1] = true := by
  decide

/-- In `main`, every unit receives the object at address 0, the `EventSystem`,
as its bus. -/
theorem mainCore_bus :
    (mainCore.getSystem Kind.EventSystem "EventSystem").1 = some ⟨0, Kind.EventSystem⟩ ∧
    (mainCore.getSystem Kind.EventSystem "RenderSystem").1 = none := by
  decide

/-- Instance: `RenderSystem` registered a second time in the registry of
`main`; the handle of `InputSystem` stays, the number of units stays 4. -/
theorem addSystem_last_write_wins_witness :
    "InputSystem" ≠ "RenderSystem" ∧
    (mainCore.addSystem "RenderSystem" (some ⟨7, Kind.RenderSystem⟩)).systems.find?
      "InputSystem" = mainCore.systems.find? "InputSystem" ∧
    (mainCore.addSystem "RenderSystem" (some ⟨7, Kind.RenderSystem⟩)).systems.size = 4 :=
  ⟨by decide,
    ((addSystem_last_write_wins mainCore "RenderSystem"
      (some ⟨7, Kind.RenderSystem⟩)).2.2.2.1 "InputSystem" (by decide)).1,
    by decide⟩

/-- Instance: in the registry of `main`, `getSystem<EventSystem>("EventSystem")`
is not null and is the handle registered under that name. -/
theorem getSystem_absent_iff_witness :
    (mainCore.getSystem Kind.EventSystem "EventSystem").1 ≠ none ∧
    mainCore.systems.find? "EventSystem" =
      some (mainCore.getSystem Kind.EventSystem "EventSystem").1 :=
  ⟨by decide, (getSystem_absent_iff Kind.EventSystem mainCore "EventSystem").2.2 (by decide)⟩

/-! ## Event bus contracts -/

/-- C1, as stated, fails: with `WindowSystem::quit` registered under `"quit"`
before another listener of `"quit"`, `dispatch("quit", ...)` calls the first
listener only, because `quit` ends the process; the second listener is
registered under the dispatched name and is never called. -/
theorem dispatch_quit_skips_later_listener :
    ¬ quitThenRender.InvokesExactlyMatching "quit" "saindo com o x" ∧
    quitThenRender.called "quit" "saindo com o x" = [0] ∧
    quitThenRender.registeredUnder "quit" 1 := by
  refine ⟨?_, by decide, by decide⟩
  intro h
  have h1 : 1 ∈ quitThenRender.called "quit" "saindo com o x" := (h.2 1).2 (by decide)
  revert h1
  decide

/-- C1, amended: `dispatch(nameEvent, msg)` calls only listeners registered
under `nameEvent`, each at most once and in registration order, and skips none
that stands before one it calls; when no callback it calls ends the process
(equivalently, when the loop is left normally) the listeners called are
exactly those registered under `nameEvent`; a callback that ends the process
is the last one called, nothing is called after it and the loop is not left
normally; and when the loop is not left normally the last callback called is
one that ended the process. -/
theorem dispatch_invokes_matching_until_exit (es : EventSystem) (nameEvent msg : String) :
    (es.called nameEvent msg).Sorted (· < ·) ∧
    (∀ i ∈ es.called nameEvent msg, es.registeredUnder nameEvent i) ∧
    (∀ i j, i < j → j ∈ es.called nameEvent msg → es.registeredUnder nameEvent i →
      i ∈ es.called nameEvent msg) ∧
    ((es.dispatch nameEvent msg).msg.isSome = true → es.InvokesExactlyMatching nameEvent msg) ∧
    ((∀ (n : Nat) (a : Invocation) (f : Callback),
        (es.dispatch nameEvent msg).invoked[n]? = some a →
        es.events[a.listener]? = some (nameEvent, f) → f a.arg ≠ none) →
      es.InvokesExactlyMatching nameEvent msg) ∧
    (∀ (n : Nat) (a : Invocation) (f : Callback),
      (es.dispatch nameEvent msg).invoked[n]? = some a →
      es.events[a.listener]? = some (nameEvent, f) → f a.arg = none →
      (es.dispatch nameEvent msg).invoked[n + 1]? = none ∧
        (es.dispatch nameEvent msg).invoked.getLast? = some a ∧
        (es.dispatch nameEvent msg).msg = none) ∧
    ((es.dispatch nameEvent msg).msg = none →
      ∃ last f, (es.dispatch nameEvent msg).invoked.getLast? = some last ∧
        es.events[last.listener]? = some (nameEvent, f) ∧ f last.arg = none) := by
  have hsorted : (es.called nameEvent msg).Sorted (· < ·) :=
    EventSystem.dispatchLoop_sorted nameEvent es.events 0 msg
  have hmem : ∀ i ∈ es.called nameEvent msg, es.registeredUnder nameEvent i := by
    intro i hi
    obtain ⟨k, hk, hm⟩ := EventSystem.dispatchLoop_mem nameEvent es.events 0 msg i hi
    have : i = k := by omega
    subst this
    exact hm
  have hexact : (es.dispatch nameEvent msg).msg.isSome = true →
      es.InvokesExactlyMatching nameEvent msg := by
    intro hret
    refine ⟨hsorted, fun i => ⟨hmem i, ?_⟩⟩
    intro hi
    have := EventSystem.dispatchLoop_complete nameEvent es.events 0 msg hret i hi
    rw [Nat.zero_add] at this
    exact this
  have hlast : (es.dispatch nameEvent msg).msg = none →
      ∃ last f, (es.dispatch nameEvent msg).invoked.getLast? = some last ∧
        es.events[last.listener]? = some (nameEvent, f) ∧ f last.arg = none := by
    intro hnone
    rcases EventSystem.dispatchLoop_last nameEvent es.events 0 msg with ⟨_, h2⟩ | h
    · have h3 : (es.dispatch nameEvent msg).msg = some msg := h2
      rw [hnone] at h3
      cases h3
    · obtain ⟨last, k, f, h1, h2, h3, h4⟩ := h
      refine ⟨last, f, h1, ?_, ?_⟩
      · have : last.listener = k := by omega
        rw [this]; exact h3
      · rw [h4]; exact hnone
  refine ⟨hsorted, hmem, ?_, hexact, ?_, ?_, hlast⟩
  · intro i j hij hj hi
    have hj' : 0 + j ∈ (EventSystem.dispatchLoop nameEvent es.events 0 msg).1.map
        Invocation.listener := by
      rw [Nat.zero_add]; exact hj
    have := EventSystem.dispatchLoop_prefix nameEvent es.events 0 msg j i hj' hij hi
    rw [Nat.zero_add] at this
    exact this
  · intro hall
    apply hexact
    cases hm : (es.dispatch nameEvent msg).msg with
    | some m => rfl
    | none =>
      exfalso
      obtain ⟨last, f, h1, h2, h3⟩ := hlast hm
      rw [List.getLast?_eq_getElem?] at h1
      exact hall _ last f h1 h2 h3
  · intro n a f ha hf hnone
    have h := EventSystem.dispatchLoop_exit_last nameEvent es.events 0 msg n a a.listener f ha
      (Nat.zero_add _).symm hf hnone
    refine ⟨h.1, ?_, h.2⟩
    have hlen : (es.dispatch nameEvent msg).invoked.length = n + 1 := by
      have h5 := List.getElem?_eq_none_iff.1 h.1
      obtain ⟨h6, _⟩ := List.getElem?_eq_some.1 ha
      have h7 : (es.dispatch nameEvent msg).invoked.length ≤ n + 1 := h5
      have h8 : n < (es.dispatch nameEvent msg).invoked.length := h6
      omega
    rw [List.getLast?_eq_getElem?, hlen, Nat.add_sub_cancel]
    exact ha

/-- Instance: in `markThenRender` no callback ends the process and both
listeners of `"Renderizar"` are called; in `quitThenRender` the callback `quit`
is called first, ends the process and nothing is called after it. -/
theorem dispatch_invokes_matching_until_exit_witness :
    (markThenRender.dispatch "Renderizar" "a").msg.isSome = true ∧
    markThenRender.InvokesExactlyMatching "Renderizar" "a" ∧
    (quitThenRender.dispatch "quit" "saindo com o x").invoked[0]? =
      some ⟨0, "saindo com o x"⟩ ∧
    quit "saindo com o x" = none ∧
    (quitThenRender.dispatch "quit" "saindo com o x").invoked[0 + 1]? = none ∧
    (quitThenRender.dispatch "quit" "saindo com o x").invoked.getLast? =
      some ⟨0, "saindo com o x"⟩ ∧
    (quitThenRender.dispatch "quit" "saindo com o x").msg = none :=
  ⟨by decide,
    (dispatch_invokes_matching_until_exit markThenRender "Renderizar" "a").2.2.2.1 (by decide),
    by decide, rfl,
    (dispatch_invokes_matching_until_exit quitThenRender "quit" "saindo com o x").2.2.2.2.2.1
      0 ⟨0, "saindo com o x"⟩ quit (by decide) rfl rfl⟩

/-- C7: when no listener is registered under `nameEvent` (in particular when
there is no listener at all), `dispatch(nameEvent, msg)` calls no callback,
leaves the `EventSystem` as it was and leaves its loop normally, with the
payload untouched. -/
theorem dispatch_without_listener (es : EventSystem) (nameEvent msg : String)
    (h : ∀ e ∈ es.events, e.1 ≠ nameEvent) :
    (es.dispatch nameEvent msg).invoked = [] ∧
    (es.dispatch nameEvent msg).self = es ∧
    (es.dispatch nameEvent msg).msg = some msg := by
  have := EventSystem.dispatchLoop_of_no_match nameEvent es.events h 0 msg
  simp [EventSystem.dispatch, this]

/-- Instance: `"Renderizar"` dispatched while the
only listener is the one of `"quit"`. -/
theorem dispatch_without_listener_witness :
    (∀ e ∈ quitOnly.events, e.1 ≠ "Renderizar") ∧
    (quitOnly.dispatch "Renderizar" "renderiza ai").invoked = [] ∧
    (quitOnly.dispatch "Renderizar" "renderiza ai").self = quitOnly ∧
    (quitOnly.dispatch "Renderizar" "renderiza ai").msg = some "renderiza ai" :=
  ⟨by simp [quitOnly, EventSystem.listener],
    dispatch_without_listener quitOnly "Renderizar" "renderiza ai"
      (by simp [quitOnly, EventSystem.listener])⟩

/-- C8: within one `dispatch(nameEvent, msg)` the first listener registered
under `nameEvent` is the first one called and it receives `msg`; every later
call receives the payload that the callback called just before it has left
(so the payload is threaded through the callbacks, not copied afresh for
each); the local payload when the loop is left normally is `msg` when nothing
was called and otherwise what the last callback has left; and when the loop is
left normally every listener registered under `nameEvent` is among the calls. -/
theorem dispatch_threads_payload (es : EventSystem) (nameEvent msg : String) :
    (∀ i, es.registeredUnder nameEvent i → (∀ j, j < i → ¬ es.registeredUnder nameEvent j) →
      (es.dispatch nameEvent msg).invoked.head? = some ⟨i, msg⟩) ∧
    (∀ first, (es.dispatch nameEvent msg).invoked.head? = some first → first.arg = msg) ∧
    (∀ n a b, (es.dispatch nameEvent msg).invoked[n]? = some a →
      (es.dispatch nameEvent msg).invoked[n + 1]? = some b →
      ∃ f, es.events[a.listener]? = some (nameEvent, f) ∧ f a.arg = some b.arg) ∧
    (∀ m, (es.dispatch nameEvent msg).msg = some m →
      ((es.dispatch nameEvent msg).invoked = [] ∧ m = msg) ∨
      ∃ last f, (es.dispatch nameEvent msg).invoked.getLast? = some last ∧
        es.events[last.listener]? = some (nameEvent, f) ∧ f last.arg = some m) ∧
    ((es.dispatch nameEvent msg).msg.isSome = true →
      ∀ i, es.registeredUnder nameEvent i →
        ∃ inv ∈ (es.dispatch nameEvent msg).invoked, inv.listener = i) := by
  refine ⟨?_, ?_, ?_, ?_, ?_⟩
  · intro i hi hfirst
    have := EventSystem.dispatchLoop_head_first nameEvent es.events 0 msg i hi hfirst
    rw [Nat.zero_add] at this
    exact this
  · intro first h
    exact EventSystem.dispatchLoop_head nameEvent es.events 0 msg first h
  · intro n a b ha hb
    obtain ⟨k, f, h1, h2, h3⟩ :=
      EventSystem.dispatchLoop_chain nameEvent es.events 0 msg n a b ha hb
    refine ⟨f, ?_, h3⟩
    have : a.listener = k := by omega
    rw [this]; exact h2
  · intro m hm
    rcases EventSystem.dispatchLoop_last nameEvent es.events 0 msg with ⟨h1, h2⟩ | h
    · left
      refine ⟨h1, ?_⟩
      have h3 : (es.dispatch nameEvent msg).msg = some msg := h2
      rw [hm] at h3
      exact Option.some.inj h3
    · right
      obtain ⟨last, k, f, h1, h2, h3, h4⟩ := h
      refine ⟨last, f, h1, ?_, ?_⟩
      · have : last.listener = k := by omega
        rw [this]; exact h3
      · rw [h4]; exact hm
  · intro hret i hi
    have := EventSystem.dispatchLoop_complete nameEvent es.events 0 msg hret i hi
    rw [Nat.zero_add] at this
    exact List.mem_map.1 this

/-- Instance: in `markThenRender` the second
listener receives `"a!"`, the payload `"a"` as the first listener left it. -/
theorem dispatch_threads_payload_witness :
    (markThenRender.dispatch "Renderizar" "a").invoked = [⟨0, "a"⟩, ⟨1, "a!"⟩] ∧
    ∃ f, markThenRender.events[0]? = some ("Renderizar", f) ∧ f "a" = some "a!" :=
  ⟨by decide,
    (dispatch_threads_payload markThenRender "Renderizar" "a").2.2.1 0 ⟨0, "a"⟩ ⟨1, "a!"⟩
      (by decide) (by decide)⟩

/-! ## Graph construction and injection contracts -/

theorem find_of_mem_of_nodup {V : Type} (l : List (String × V)) (hl : (l.map Prod.fst).Nodup)
    (k : String) (v : V) (h : (k, v) ∈ l) :
    (l.find? (fun e => decide (e.1 = k))).map Prod.snd = some v := by
  induction l with
  | nil => simp at h
  | cons e rest ih =>
    rw [List.map_cons] at hl
    have hnd := List.nodup_cons.1 hl
    rcases List.mem_cons.1 h with h | h
    · subst h
      simp
    · have hne : e.1 ≠ k := by
        intro he
        apply hnd.1
        rw [he]
        exact List.mem_map.2 ⟨(k, v), h, rfl⟩
      simp only [List.find?_cons, hne, decide_False]
      exact ih hnd.2 h

theorem UMap.find_of_mem {V : Type} (m : UMap V) (k : String) (v : V)
    (h : (k, v) ∈ m.entries) : m.find? k = some v :=
  find_of_mem_of_nodup m.entries m.nodup k v h

/-- C3: the graph built by `run` has exactly one node per registered name (for
every name, the number of nodes made for it is `systems.count(name)`, and
`tasks[name]` is that node), and its constraints are exactly the pairs
`(tasks[before], tasks[after])` for the dependencies `(before, after)` of the
list whose two names are registered, one per such entry of the list; a
dependency with an unregistered name adds nothing. -/
theorem graph_nodes_and_constraints (cs : CoreSystem) :
    (∀ name, (cs.graph.nodes.map TaskWork.name).count name = cs.systems.count name) ∧
    cs.graph.nodes.length = cs.systems.size ∧
    (∀ name t, cs.tasks.find? name = some t ↔
      (cs.graph.nodes[t]?).map TaskWork.name = some name) ∧
    (∀ tb ta, (tb, ta) ∈ cs.graph.edges ↔
      ∃ before after, cs.RegisteredEdge before after ∧
        cs.tasks.find? before = some tb ∧ cs.tasks.find? after = some ta) ∧
    cs.graph.edges.length =
      (cs.dependencies.filter
        (fun d => decide (cs.systems.count d.1 ≠ 0 ∧ cs.systems.count d.2 ≠ 0))).length := by
  have hnames : cs.graph.nodes.map TaskWork.name = cs.systems.entries.map Prod.fst := by
    rw [CoreSystem.graph_nodes, List.map_map]
    rfl
  refine ⟨?_, CoreSystem.graph_nodes_length cs, ?_, CoreSystem.mem_graph_edges cs,
    CoreSystem.graph_edges_length cs⟩
  · intro name
    rw [hnames, UMap.count_eq_count_keys]
  · intro name t
    rw [CoreSystem.tasks_find_iff, ← List.getElem?_map, ← List.getElem?_map, hnames]

/-- C9: for every node of the graph built by `run` whose handle is not null,
the lambda calls `run()` on the object registered under the node's name, and
at that moment the object's `name` is that key and its `eventSystem` is
`getSystem<EventSystem>("EventSystem")`, nothing else in the store having
changed. That pointer does not depend on the unit: it is null exactly when no
object of class `EventSystem` is registered under `"EventSystem"`, and
otherwise it is the handle registered under `"EventSystem"`. -/
theorem run_injects_name_and_bus (cs : CoreSystem) (w : TaskWork) (p : Ptr) (heap : Heap)
    (runOf : Ptr → Heap → Option Heap)
    (hw : w ∈ cs.graph.nodes) (hp : w.system = some p) :
    cs.systems.find? w.name = some (some p) ∧
    (∃ heap', cs.stateAtRun w heap = some (p, heap') ∧
      cs.taskBody runOf w heap = runOf p heap' ∧
      (heap' p.addr).name = w.name ∧
      (heap' p.addr).eventSystem = (cs.getSystem Kind.EventSystem "EventSystem").1 ∧
      ∀ a, a ≠ p.addr → heap' a = heap a) ∧
    ((cs.getSystem Kind.EventSystem "EventSystem").1 = none ↔
      ¬ ∃ q, cs.systems.find? "EventSystem" = some (some q) ∧ q.kind = Kind.EventSystem) ∧
    (∀ q, cs.systems.find? "EventSystem" = some (some q) → q.kind = Kind.EventSystem →
      (cs.getSystem Kind.EventSystem "EventSystem").1 = some q) := by
  have hisA : ∀ q : Ptr, q.kind.isA Kind.EventSystem = true ↔ q.kind = Kind.EventSystem := by
    intro q
    simp [Kind.isA]
  refine ⟨?_, ?_, ?_, ?_⟩
  · rw [CoreSystem.graph_nodes] at hw
    obtain ⟨e, he, rfl⟩ := List.mem_map.1 hw
    simp only at hp ⊢
    rw [← hp]
    exact UMap.find_of_mem _ _ _ he
  · refine ⟨_, by simp only [CoreSystem.stateAtRun, hp]; rfl, ?_, ?_, ?_, ?_⟩
    · simp only [CoreSystem.taskBody, CoreSystem.stateAtRun, hp]
    · simp [Heap.set]
    · simp [Heap.set]
    · intro a ha
      simp [Heap.set, ha]
  · cases hf : cs.systems.find? "EventSystem" with
    | none =>
      rw [CoreSystem.getSystem_of_not_find _ cs _ hf]
      simp
    | some h =>
      rw [CoreSystem.getSystem_of_find _ cs _ h hf]
      cases h with
      | none => simp [dynamicPointerCast]
      | some q =>
        by_cases hk : q.kind = Kind.EventSystem
        · simp [dynamicPointerCast, hk, Kind.isA]
        · have : ¬ q.kind.isA Kind.EventSystem = true := fun h => hk ((hisA q).1 h)
          simp [dynamicPointerCast, this, hk]
  · intro q hf hk
    rw [CoreSystem.getSystem_of_find _ cs _ (some q) hf]
    simp [dynamicPointerCast, (hisA q).2 hk]

/-- Instance: the node of `"RenderSystem"` in the
graph of `main`, from a store in which no member is set yet. -/
theorem run_injects_name_and_bus_witness :
    (⟨"RenderSystem", some ⟨1, Kind.RenderSystem⟩⟩ : TaskWork) ∈ mainCore.graph.nodes ∧
    ∃ heap', mainCore.stateAtRun ⟨"RenderSystem", some ⟨1, Kind.RenderSystem⟩⟩
        (fun _ => ⟨none, ""⟩) = some (⟨1, Kind.RenderSystem⟩, heap') ∧
      mainCore.taskBody (fun _ h => some h) ⟨"RenderSystem", some ⟨1, Kind.RenderSystem⟩⟩
        (fun _ => ⟨none, ""⟩) = some heap' ∧
      (heap' 1).name = "RenderSystem" ∧
      (heap' 1).eventSystem = (mainCore.getSystem Kind.EventSystem "EventSystem").1 ∧
      ∀ a, a ≠ 1 → heap' a = ⟨none, ""⟩ :=
  ⟨by decide,
    (run_injects_name_and_bus mainCore ⟨"RenderSystem", some ⟨1, Kind.RenderSystem⟩⟩
      ⟨1, Kind.RenderSystem⟩ (fun _ => ⟨none, ""⟩) (fun _ h => some h) (by decide) rfl).2.1⟩

/-! ## Scheduling contracts -/

namespace CoreSystem

/-- A registered dependency is a constraint between the two tasks. -/
theorem registeredEdge_mem_graph (cs : CoreSystem) (before after : String)
    (h : cs.RegisteredEdge before after) :
    ((cs.tasks.find? before).getD 0, (cs.tasks.find? after).getD 0) ∈ cs.graph.edges := by
  obtain ⟨tb, hb⟩ := (UMap.count_ne_zero_iff _ _).1 ((tasks_count_iff cs before).2 h.2.1)
  obtain ⟨ta, ha⟩ := (UMap.count_ne_zero_iff _ _).1 ((tasks_count_iff cs after).2 h.2.2)
  rw [hb, ha]
  exact (mem_graph_edges cs tb ta).2 ⟨before, after, h, hb, ha⟩

theorem graph_onCycle (cs : CoreSystem) (name : String) (hc : OnCycle cs.RegisteredEdge name) :
    OnCycle (fun b a => (b, a) ∈ cs.graph.edges) ((cs.tasks.find? name).getD 0) :=
  Relation.TransGen.lift (fun name => (cs.tasks.find? name).getD 0)
    (fun b a hba => registeredEdge_mem_graph cs b a hba) hc

end CoreSystem

/-- C2: in every execution of the graph built by `run`, and for every
constraint `(tb, ta)` of that graph, when task `ta` starts task `tb` has
already completed: its completion stands in the trace before the start of
`ta`, and its state at that moment is `done`. -/
theorem run_respects_precedence (cs : CoreSystem) (trace pre post : List Ev) (tb ta : Task)
    (hrun : cs.run trace = true) (hedge : (tb, ta) ∈ cs.graph.edges)
    (hsplit : trace = pre ++ Ev.start ta :: post) :
    Ev.finish tb ∈ pre ∧ status pre.reverse tb = Status.done := by
  subst hsplit
  have h : isExecution cs.graph cs.systems.size
      (post.reverse ++ Ev.start ta :: pre.reverse) = true := by
    have := hrun
    unfold CoreSystem.run at this
    simpa using this
  have hfin := precedence_respected cs.graph cs.systems.size _ _ tb ta h hedge
  refine ⟨List.mem_reverse.1 hfin, ?_⟩
  simp [status, done, List.mem_reverse.1 hfin]

/-- Instance: the registry of `main`, where
`EventSystem` (task 0) precedes `RenderSystem` (task 1). -/
theorem run_respects_precedence_witness :
    mainCore.tasks.find? "EventSystem" = some 0 ∧
    mainCore.tasks.find? "RenderSystem" = some 1 ∧
    mainCore.run [Ev.start 0, Ev.finish 0, Ev.start 2, Ev.start 1] = true ∧
    (0, 1) ∈ mainCore.graph.edges ∧
    Ev.finish 0 ∈ [Ev.start 0, Ev.finish 0, Ev.start 2] ∧
    status [Ev.start 0, Ev.finish 0, Ev.start 2].reverse 0 = Status.done :=
  ⟨by decide, by decide, by decide, by decide,
    run_respects_precedence mainCore [Ev.start 0, Ev.finish 0, Ev.start 2, Ev.start 1]
      [Ev.start 0, Ev.finish 0, Ev.start 2] [] 0 1 (by decide) (by decide) rfl⟩

/-- C10: there is no cycle detection. When a registered name lies on a cycle of
the dependencies between registered names (a dependency `(A, A)` on a
registered `A` included), then in every execution of `run` the task of that
name never starts, and the state in which every unit is done is never
reached. -/
theorem run_cycle_never_starts (cs : CoreSystem) (name : String) (trace : List Ev)
    (hc : OnCycle cs.RegisteredEdge name) (hrun : cs.run trace = true) :
    ∃ t, cs.tasks.find? name = some t ∧ Ev.start t ∉ trace ∧
      cs.everyUnitDone trace = false := by
  have hreg : cs.systems.count name ≠ 0 := by
    obtain ⟨b, hb, _⟩ := onCycle_pred _ name hc
    exact hb.2.2
  obtain ⟨t, ht⟩ := (UMap.count_ne_zero_iff _ _).1 ((CoreSystem.tasks_count_iff cs name).2 hreg)
  have hcyc := CoreSystem.graph_onCycle cs name hc
  rw [ht] at hcyc
  have hex : isExecution cs.graph cs.systems.size trace.reverse = true := hrun
  have hns := onCycle_never_starts cs.graph cs.systems.size trace.reverse hex t hcyc
  refine ⟨t, ht, fun hs => hns (List.mem_reverse.2 hs), ?_⟩
  rw [← Bool.not_eq_true]
  intro hret
  have hall : allDone cs.graph trace.reverse = true := hret
  rw [allDone_iff] at hall
  have hlt : t < cs.graph.nodes.length := by
    rw [CoreSystem.graph_nodes_length]
    exact CoreSystem.tasks_find_lt cs name t ht
  exact hns (finish_started cs.graph cs.systems.size trace.reverse hex t (hall t hlt))

/-- Instance: in `selfDependent` the unit `"B"`
depends on itself; after `"A"` has run, `"B"` has not started and the run has
not returned. -/
theorem run_cycle_never_starts_witness :
    OnCycle selfDependent.RegisteredEdge "B" ∧
    selfDependent.run [Ev.start 0, Ev.finish 0] = true ∧
    ∃ t, selfDependent.tasks.find? "B" = some t ∧ Ev.start t ∉ [Ev.start 0, Ev.finish 0] ∧
      selfDependent.everyUnitDone [Ev.start 0, Ev.finish 0] = false :=
  ⟨Relation.TransGen.single ⟨by decide, by decide, by decide⟩, by decide,
    run_cycle_never_starts selfDependent "B" [Ev.start 0, Ev.finish 0]
      (Relation.TransGen.single ⟨by decide, by decide, by decide⟩) (by decide)⟩

end Notas
